import Mathlib

/-!
# Verification of the `blobstore` content-addressed blob store

Shallow embedding of the repository's Go sources (`blobstore.go`,
`checkedreader.go`, `fileblobs.go`, `memblobs.go`, `vfsstore.go`) and proofs
about the claims of its specification.

Modelling conventions:
* Go `[]byte` values (blob contents, keys, digests) are `List Nat`, each
  element standing for one byte (`< 256` in all states the program produces).
* The caller-supplied `crypto.Hash` is an abstract parameter: a digest
  function `hash : List Nat → List Nat` together with its digest size.
* The Go `map[string]*bytes.Buffer` of the memory medium is an association
  list; `*bytes.Buffer` pointer sharing is modelled by addressing buffers
  through their map entry, and the buffer's read-consumption by replacing the
  entry's unread contents.
* Go slice indexing out of range (a runtime panic) is modelled by `Option`:
  `none` is a panic.
-/

namespace Blobstore

/-- A blob key: the raw digest bytes (Go `type Key []byte`). -/
abbrev Key := List Nat

/-- The contents of an in-memory blob buffer (the unread bytes of a
`bytes.Buffer`). -/
abbrev Buffer := List Nat

/-! ## Hexadecimal encoding and decoding (Go `encoding/hex`) -/

/-- One lowercase hex digit, mirroring Go's `hextable = "0123456789abcdef"`. -/
def hexDigitChar (n : Nat) : Char :=
  if n < 10 then Char.ofNat (48 + n) else Char.ofNat (97 + (n - 10))

/-- `hex.EncodeToString`: every byte becomes `hextable[b>>4]` then
`hextable[b&0x0f]`.  For a byte (`b < 256`), `b >>> 4 = b / 16 % 16`. -/
def hexEncode (bs : List Nat) : String :=
  ⟨(bs.map (fun b => [hexDigitChar (b / 16 % 16), hexDigitChar (b % 16)])).flatten⟩

/-- The value of one hex digit character, as accepted by `hex.DecodeString`
(which takes `0-9`, `a-f` and `A-F`). -/
def hexDigitVal (c : Char) : Option Nat :=
  if 48 ≤ c.toNat ∧ c.toNat ≤ 57 then some (c.toNat - 48)
  else if 97 ≤ c.toNat ∧ c.toNat ≤ 102 then some (c.toNat - 97 + 10)
  else if 65 ≤ c.toNat ∧ c.toNat ≤ 70 then some (c.toNat - 65 + 10)
  else none

/-- `hex.DecodeString` over the character list: consumes two hex digits per
byte; an odd-length input or a non-hex character is an error (`none`). -/
def hexDecodeList : List Char → Option (List Nat)
  | [] => some []
  | [_] => none
  | c1 :: c2 :: rest =>
    match hexDigitVal c1, hexDigitVal c2, hexDecodeList rest with
    | some hi, some lo, some tail => some ((hi * 16 + lo) :: tail)
    | _, _, _ => none

/-- `hex.DecodeString` on a string. -/
def hexDecode (s : String) : Option (List Nat) :=
  hexDecodeList s.toList

/-! ## Name handling of the storage layer -/

/-- `memBlobs.Keyname` (and the leaf file name of `fileBlobs.Keyname`): the
hex text of the key. -/
def keynameOf (key : Key) : String := hexEncode key

/-- The extension stripping of `fileBlobs.ListTo`: if the file name contains a
`.`, keep `strings.Split(filename, ".")[0]`, i.e. the part before the first
dot. -/
def stripExt (filename : String) : String :=
  if filename.toList.contains '.' then ⟨filename.toList.takeWhile (· ≠ '.')⟩
  else filename

/-- The base name produced by `TmpKeyname` for random bytes `r` (of
digest size): `hex(r) + ".new"`. -/
def tmpBaseName (r : List Nat) : String := hexEncode r ++ ".new"

/-- `VFSBlobServer.acceptor`: hex-decode the candidate name; accept it as a
key exactly when decoding succeeds and yields `hsize` bytes. -/
def acceptorFn (hsize : Nat) (name : String) : Option Key :=
  match hexDecode name with
  | some bytes => if bytes.length = hsize then some bytes else none
  | none => none

/-! ## The Go map of the memory medium, as an association list -/

/-- Go map read `m[k]` (with presence flag). -/
def mapLookup (m : List (String × Buffer)) (k : String) : Option Buffer :=
  match m with
  | [] => none
  | (k', v') :: rest => if k' = k then some v' else mapLookup rest k

/-- Go map write `m[k] = v`: replace the binding if present, else add it. -/
def mapSet (m : List (String × Buffer)) (k : String) (v : Buffer) :
    List (String × Buffer) :=
  match m with
  | [] => [(k, v)]
  | (k', v') :: rest =>
    if k' = k then (k, v) :: rest else (k', v') :: mapSet rest k v

/-- Go map `delete(m, k)`: remove the binding for `k` (no-op if absent). -/
def mapDelete (m : List (String × Buffer)) (k : String) :
    List (String × Buffer) :=
  m.filter (fun p => p.1 ≠ k)

/-! ## The sorted keyname index of the memory medium -/

/-- Go's `<` on strings is byte-wise lexicographic comparison; on the ASCII
names this program builds (hex digests, `.new`/`.blob` suffixes) that is
exactly the lexicographic order of the strings' character lists, which is the
form we compute with. -/
def nameLt (a b : String) : Prop := a.toList < b.toList

/-- `a ≤ b` for Go strings, in the same character-list form. -/
def nameLe (a b : String) : Prop := a.toList ≤ b.toList

instance : DecidableRel nameLt := fun a b =>
  inferInstanceAs (Decidable (a.toList < b.toList))

instance : DecidableRel nameLe := fun a b =>
  inferInstanceAs (Decidable (a.toList ≤ b.toList))

/-- `sort.StringSlice.Search`: the smallest index `i` with `l[i] ≥ x`
(equivalently the number of leading elements `< x`), realized linearly; on a
sorted slice this is exactly what Go's binary search returns. -/
def search : List String → String → Nat
  | [], _ => 0
  | y :: ys, x => if nameLt y x then search ys x + 1 else 0

/-- `memBlobs.insert`: append the name and shift the tail right, which places
the name at the `Search` index. -/
def memInsert (l : List String) (x : String) : List String :=
  l.insertIdx (search l x) x

/-- `memBlobs.extract`: look at position `Search(x)`; reading past the end of
the slice is a Go panic (`none`); if the element there is not `x`, return the
list unchanged with `false`; otherwise shift left over it (remove it) and
return `true`. -/
def memExtract (l : List String) (x : String) : Option (List String × Bool) :=
  let i := search l x
  if h : i < l.length then
    if l.get ⟨i, h⟩ = x then some (l.eraseIdx i, true) else some (l, false)
  else none

/-! ## The memory medium (`memBlobs`) -/

/-- The state of `memBlobs`: the blob map and the maintained sorted keyname
index. -/
structure MemBlobs where
  blobs : List (String × Buffer)
  keynames : List String
deriving DecidableEq, Repr

/-- `newMemBlobs`: empty map, empty index. -/
def emptyMem : MemBlobs := ⟨[], []⟩

/-- `memBlobs.Create`: bind the name to a fresh empty buffer and insert the
name into the sorted index. -/
def memCreate (s : MemBlobs) (name : String) : MemBlobs :=
  { blobs := mapSet s.blobs name [], keynames := memInsert s.keynames name }

/-- `memBlobs.Delete`: remove the name from the map.  (The Go code does not
touch the `keynames` index here.) -/
def memDelete (s : MemBlobs) (name : String) : MemBlobs :=
  { s with blobs := mapDelete s.blobs name }

/-- `memBlobs.Exists`. -/
def memExists (s : MemBlobs) (name : String) : Bool :=
  (mapLookup s.blobs name).isSome

/-- `memBlobs.Rename`: `blobs[new] = blobs[old]`; `insert(new)`;
`delete(blobs, old)`; `extract(old)` — in that order.  `extract` can panic
(`none`).  A missing `old` would make Go store a nil buffer; the engine never
renames a missing name, and we model that read with a default empty buffer. -/
def memRename (s : MemBlobs) (old new_ : String) : Option MemBlobs :=
  let v := (mapLookup s.blobs old).getD []
  let b1 := mapSet s.blobs new_ v
  let k1 := memInsert s.keynames new_
  let b2 := mapDelete b1 old
  match memExtract k1 old with
  | some (k2, _) => some { blobs := b2, keynames := k2 }
  | none => none

/-! ## Sequences of memory-medium operations (for the index invariants) -/

/-- A memory-medium mutation, as named by the spec's invariant claim. -/
inductive MedOp where
  | create (name : String)
  | delete (name : String)
  | rename (old new_ : String)
deriving DecidableEq, Repr

/-- Run a sequence of memory-medium operations; `none` is a Go panic inside
`Rename`'s `extract`. -/
def runMedOps (s : MemBlobs) : List MedOp → Option MemBlobs
  | [] => some s
  | .create n :: rest => runMedOps (memCreate s n) rest
  | .delete n :: rest => runMedOps (memDelete s n) rest
  | .rename o n :: rest =>
    match memRename s o n with
    | some s' => runMedOps s' rest
    | none => none

/-- The set of map keys of a memory-medium state (the names currently bound
in the blob map). -/
def mapKeys (s : MemBlobs) : List String := s.blobs.map Prod.fst

/-! ## Errors of the storage engine

In Go all of these are `error` values distinguished by their message text
(`"Expected a %d bytes long hash key..."`, `"Key not found: %s"`,
`CorruptedBlobErrorPrefix`); distinct constructors model the distinct
messages, carrying the same data the messages carry. -/

/-- An engine-level error. -/
inductive BSErr where
  /-- `VFSBlobServer.Read`'s size check: wanted digest size, got key length. -/
  | shortKey (want got : Nat) (key : Key)
  /-- `memBlobs.Open`: `"Key not found: %s"`. -/
  | notFound (name : String)
  /-- `checkedReader.Read`: `"Corrupted Blob: expected hash was %v but got %v!!"`. -/
  | corrupted (expected actual : Key)
deriving DecidableEq, Repr

/-- Is this error the medium's not-found error? -/
def BSErr.isNotFound : BSErr → Bool
  | .notFound _ => true
  | _ => false

/-! ## The integrity-checking reader (`checkedreader.go`) -/

/-- An error value a `Read` call can carry (`none` stands for Go's nil
error): ordinary end-of-stream (`io.EOF`), some other I/O error, or the
corruption error the checked reader substitutes for `io.EOF` on digest
mismatch (`"Corrupted Blob: expected hash was %v but got %v!!"`, naming the
expected and the actual digest). -/
inductive ReadErr where
  | eof
  | ioErr (code : Nat)
  | corrupted (expected actual : Key)
deriving DecidableEq, Repr

/-- The state of a `checkedReader`: the expected key and the bytes fed into
the hash accumulator so far (the accumulator of a `hash.Hash` is determined
by the byte sequence written to it; `Sum` is `hash` of that sequence). -/
structure CheckedReader where
  key : Key
  hashed : List Nat
deriving DecidableEq, Repr

/-- One `checkedReader.Read` call, given the underlying read's result: a
chunk of `n = chunk.length` delivered bytes and its error value.  If `n > 0`
the chunk is written to the hasher; then, exactly when the error is `io.EOF`,
the accumulated digest is compared with the expected key and a mismatch
replaces `io.EOF` by the corruption error.  Returns the new reader state, the
byte count and the error result. -/
def checkedRead (hash : List Nat → List Nat) (cr : CheckedReader)
    (chunk : List Nat) (e : Option ReadErr) :
    CheckedReader × Nat × Option ReadErr :=
  let hashed' := if 0 < chunk.length then cr.hashed ++ chunk else cr.hashed
  let err' :=
    match e with
    | some .eof =>
      let actualKey := hash hashed'
      if cr.key = actualKey then some .eof else some (.corrupted cr.key actualKey)
    | other => other
  (⟨cr.key, hashed'⟩, chunk.length, err')

/-! ## The storage engine (`vfsstore.go`) over the memory medium

`VFSBlobServer` is generic in its `VirtualFS`; we instantiate it with
`memBlobs`, the only medium whose state fits a pure model.  The reader a
memory `Open` returns is the stored `*bytes.Buffer` itself: we model that
pointer by the map name it is reachable through. -/

/-- A call into the storage medium, recorded so that "no medium operation is
performed" is an observable statement. -/
inductive MedCall where
  | openC (name : String)
  | createC (name : String)
  | deleteC (name : String)
  | existsC (name : String)
  | renameC (old new_ : String)
deriving DecidableEq, Repr

/-- A reader handed out by `VFSBlobServer.Read` on the memory medium: the
checked reader wraps the opened buffer (named by its map entry) and the
requested key, with a fresh hasher. -/
structure MemReader where
  name : String
  key : Key
deriving DecidableEq, Repr

/-- `VFSBlobServer.Read`: reject keys shorter than the digest size before
touching the medium; otherwise open `Keyname(key)` (not-found surfaces
unchanged) and wrap the stream in a checked reader.  The second component
records the medium calls made. -/
def bsRead (hsize : Nat) (s : MemBlobs) (key : Key) :
    Except BSErr MemReader × List MedCall :=
  if key.length < hsize then
    (.error (.shortKey hsize key.length key), [])
  else
    match mapLookup s.blobs (keynameOf key) with
    | none => (.error (.notFound (keynameOf key)), [.openC (keynameOf key)])
    | some _ => (.ok ⟨keynameOf key, key⟩, [.openC (keynameOf key)])

/-- What a consumer that drains a reader to end-of-stream observes: the bytes
delivered, and `none` for ordinary end-of-stream or `some e` for an error
replacing it. -/
structure ReadOutcome where
  bytes : List Nat
  err : Option BSErr
deriving DecidableEq, Repr

/-- Fully consume a `MemReader`: a `bytes.Buffer` yields its unread contents
and is left empty (the buffer in the map IS the buffer being read — pointer
sharing), after which `io.EOF` triggers the checked reader's digest
comparison. -/
def consumeAll (hash : List Nat → List Nat) (s : MemBlobs) (r : MemReader) :
    ReadOutcome × MemBlobs :=
  match mapLookup s.blobs r.name with
  | some buf =>
    let s' : MemBlobs := { s with blobs := mapSet s.blobs r.name [] }
    let actualKey := hash buf
    (⟨buf, if r.key = actualKey then none
           else some (.corrupted r.key actualKey)⟩, s')
  | none =>
    -- unreachable after a successful open in a sequential run
    (⟨[], if r.key = hash [] then none
          else some (.corrupted r.key (hash []))⟩, s)

/-- `Read` then drain: open errors are reported with no bytes delivered. -/
def readFull (hash : List Nat → List Nat) (hsize : Nat) (s : MemBlobs)
    (key : Key) : ReadOutcome × MemBlobs :=
  match (bsRead hsize s key).1 with
  | .error e => (⟨[], some e⟩, s)
  | .ok r => consumeAll hash s r

/-- `VFSBlobServer.Write` with the random temporary name supplied as the
parameter `tmp` (Go draws it from `TmpKeyname`): create the temporary, copy
the blob into it while hashing it, then either delete the temporary (when the
canonical name already exists) or rename it to the canonical name.  `none` is
a panic inside the memory medium's `Rename` (never reached on the states the
engine produces). -/
def bsWrite (hash : List Nat → List Nat) (s : MemBlobs) (tmp : String)
    (blob : List Nat) : Option (Key × MemBlobs) :=
  let s1 := memCreate s tmp
  -- io.Copy(io.MultiWriter(newblob, hasher), blob)
  let s2 : MemBlobs := { s1 with blobs := mapSet s1.blobs tmp blob }
  let key := hash blob
  let kn := keynameOf key
  if memExists s2 kn then
    -- no need to keep two copies of the same bytes
    some (key, memDelete s2 tmp)
  else
    (memRename s2 tmp kn).map (fun s3 => (key, s3))

/-- `VFSBlobServer.Remove`: delete the canonical name if it exists; report
the delete's error (always nil on the memory medium), and no error at all
when the key is absent. -/
def bsRemove (s : MemBlobs) (key : Key) : Option BSErr × MemBlobs :=
  let kn := keynameOf key
  if memExists s kn then (none, memDelete s kn) else (none, s)

/-! ## Enumeration (`memBlobs.ListTo`) -/

/-- One element of the enumeration channel (`KeyOrError`). -/
structure KeyOrError where
  key : Option Key
  err : Option BSErr
deriving DecidableEq, Repr

/-- `memBlobs.ListTo`: walk the keyname index in order, apply the acceptor to
each name directly, and send `KeyOrError{key, nil}` for every accepted name;
finally return `true` (the traversal cannot fail).  The channel is modelled
by the list of elements sent on it. -/
def memListTo (names : List String) (acceptor : String → Option Key) :
    List KeyOrError × Bool :=
  match names with
  | [] => ([], true)
  | n :: rest =>
    let tail := memListTo rest acceptor
    match acceptor n with
    | some k => (⟨some k, none⟩ :: tail.1, tail.2)
    | none => tail

/-! ## Interleaved `insert`/`extract` sequences on the index alone -/

/-- One call to the sorted-index maintenance routines. -/
inductive IdxOp where
  | ins (name : String)
  | ext (name : String)
deriving DecidableEq, Repr

/-- The index state after one `extract` call (ignoring its boolean), when it
does not panic. -/
def extStep (l : List String) (x : String) : List String :=
  match memExtract l x with
  | some (l', _) => l'
  | none => l

/-- Run interleaved `insert`/`extract` calls; `none` is a panic inside
`extract`. -/
def runIdxOpsFrom (l : List String) : List IdxOp → Option (List String)
  | [] => some l
  | .ins n :: rest => runIdxOpsFrom (memInsert l n) rest
  | .ext n :: rest =>
    match memExtract l n with
    | some (l', _) => runIdxOpsFrom l' rest
    | none => none

/-- The names currently present after a sequence of calls: an `ins` makes the
name present, an `ext` makes it absent (kept duplicate-free so its length is
the number of present names). -/
def presentFrom (p : List String) : List IdxOp → List String
  | [] => p
  | .ins n :: rest => presentFrom (if n ∈ p then p else n :: p) rest
  | .ext n :: rest => presentFrom (p.erase n) rest

/-- The side condition under which the amended sorted-index claim holds: an
inserted name must not be currently present (else the index gains a
duplicate), and an extract's binary-search position must land in bounds,
i.e. the name must not sort strictly after every element (else Go panics);
both are checked against the index as the run reaches them. -/
def validFrom (l : List String) : List IdxOp → Bool
  | [] => true
  | .ins n :: rest => !l.contains n && validFrom (memInsert l n) rest
  | .ext n :: rest => decide (search l n < l.length) && validFrom (extStep l n) rest

/-! ## Helper lemmas: hex encoding -/

theorem hexDigitVal_hexDigitChar {n : Nat} (h : n < 16) :
    hexDigitVal (hexDigitChar n) = some n := by
  interval_cases n <;> decide

theorem hexDigitChar_ne_dot {n : Nat} (h : n < 16) : hexDigitChar n ≠ '.' := by
  interval_cases n <;> decide

theorem toList_hexEncode (bs : List Nat) :
    (hexEncode bs).toList =
      (bs.map (fun b => [hexDigitChar (b / 16 % 16), hexDigitChar (b % 16)])).flatten :=
  rfl

theorem hexEncode_cons (b : Nat) (bs : List Nat) :
    (hexEncode (b :: bs)).toList =
      hexDigitChar (b / 16 % 16) :: hexDigitChar (b % 16) :: (hexEncode bs).toList :=
  rfl

/-- Decoding inverts encoding on genuine bytes. -/
theorem hexDecodeList_hexEncode (bs : List Nat) (h : ∀ b ∈ bs, b < 256) :
    hexDecodeList (hexEncode bs).toList = some bs := by
  induction bs with
  | nil => rfl
  | cons b rest ih =>
    have hb : b < 256 := h b (by simp)
    have hrest : ∀ x ∈ rest, x < 256 := fun x hx => h x (by simp [hx])
    have h1 := hexDigitVal_hexDigitChar (n := b / 16 % 16) (Nat.mod_lt _ (by norm_num))
    have h2 := hexDigitVal_hexDigitChar (n := b % 16) (Nat.mod_lt _ (by norm_num))
    rw [hexEncode_cons]
    simp only [hexDecodeList, h1, h2, ih hrest]
    have hdiv : b / 16 % 16 = b / 16 :=
      Nat.mod_eq_of_lt (Nat.div_lt_of_lt_mul (by omega))
    have hmod := Nat.div_add_mod b 16
    rw [hdiv]
    congr 2
    omega

/-- Every character of a hex encoding is a hex digit character. -/
theorem mem_toList_hexEncode {c : Char} {bs : List Nat}
    (h : c ∈ (hexEncode bs).toList) : ∃ n < 16, c = hexDigitChar n := by
  rw [toList_hexEncode] at h
  simp only [List.mem_flatten, List.mem_map] at h
  obtain ⟨l, ⟨b, _, rfl⟩, hc⟩ := h
  simp only [List.mem_cons, List.not_mem_nil, or_false] at hc
  rcases hc with h1 | h1
  · exact ⟨b / 16 % 16, Nat.mod_lt _ (by norm_num), h1⟩
  · exact ⟨b % 16, Nat.mod_lt _ (by norm_num), h1⟩

theorem takeWhile_ne_dot_append (xs ys : List Char) (h : ∀ c ∈ xs, c ≠ '.') :
    (xs ++ '.' :: ys).takeWhile (· ≠ '.') = xs := by
  induction xs with
  | nil => simp [List.takeWhile]
  | cons c cs ih =>
    have hc : c ≠ '.' := h c (by simp)
    simp only [List.cons_append, List.takeWhile_cons]
    rw [if_pos (by simpa using hc)]
    rw [ih (fun d hd => h d (by simp [hd]))]

/-- No character of a hex encoding is a dot. -/
theorem hexEncode_char_ne_dot {c : Char} {bs : List Nat}
    (h : c ∈ (hexEncode bs).toList) : c ≠ '.' := by
  obtain ⟨n, hn, rfl⟩ := mem_toList_hexEncode h
  exact hexDigitChar_ne_dot hn

/-! ## Helper lemmas: the Go map model -/

theorem mapLookup_cons (a : String) (v : Buffer) (rest : List (String × Buffer))
    (k : String) :
    mapLookup ((a, v) :: rest) k = if a = k then some v else mapLookup rest k :=
  rfl

theorem mapSet_cons (a : String) (v : Buffer) (rest : List (String × Buffer))
    (k : String) (w : Buffer) :
    mapSet ((a, v) :: rest) k w =
      if a = k then (k, w) :: rest else (a, v) :: mapSet rest k w :=
  rfl

theorem mapDelete_cons (a : String) (v : Buffer) (rest : List (String × Buffer))
    (k : String) :
    mapDelete ((a, v) :: rest) k =
      if a = k then mapDelete rest k else (a, v) :: mapDelete rest k := by
  by_cases h : a = k <;> simp [mapDelete, List.filter_cons, h]

theorem mapLookup_mapSet_self (m : List (String × Buffer)) (k : String)
    (v : Buffer) : mapLookup (mapSet m k v) k = some v := by
  induction m with
  | nil => simp [mapSet, mapLookup]
  | cons p rest ih =>
    obtain ⟨a, w⟩ := p
    by_cases h : a = k <;> simp [mapSet_cons, mapLookup_cons, h, ih]

theorem mapLookup_mapSet_ne (m : List (String × Buffer)) {k k' : String}
    (v : Buffer) (h : k' ≠ k) :
    mapLookup (mapSet m k v) k' = mapLookup m k' := by
  induction m with
  | nil => simp [mapSet, mapLookup, Ne.symm h]
  | cons p rest ih =>
    obtain ⟨a, w⟩ := p
    by_cases hp : a = k
    · subst hp
      simp [mapSet_cons, mapLookup_cons, Ne.symm h]
    · simp [mapSet_cons, mapLookup_cons, hp, ih]

theorem mapLookup_mapDelete_self (m : List (String × Buffer)) (k : String) :
    mapLookup (mapDelete m k) k = none := by
  induction m with
  | nil => rfl
  | cons p rest ih =>
    obtain ⟨a, w⟩ := p
    by_cases h : a = k <;> simp [mapDelete_cons, mapLookup_cons, h, ih]

theorem mapLookup_mapDelete_ne (m : List (String × Buffer)) {k k' : String}
    (h : k' ≠ k) : mapLookup (mapDelete m k) k' = mapLookup m k' := by
  induction m with
  | nil => rfl
  | cons p rest ih =>
    obtain ⟨a, w⟩ := p
    by_cases hp : a = k
    · subst hp
      simp [mapDelete_cons, mapLookup_cons, Ne.symm h, ih]
    · simp [mapDelete_cons, mapLookup_cons, hp, ih]

theorem mapDelete_mapSet_comm (m : List (String × Buffer)) {k1 k2 : String}
    (v : Buffer) (h : k1 ≠ k2) :
    mapDelete (mapSet m k1 v) k2 = mapSet (mapDelete m k2) k1 v := by
  induction m with
  | nil => simp [mapSet, mapDelete, List.filter_cons, h]
  | cons p rest ih =>
    obtain ⟨a, w⟩ := p
    by_cases h1 : a = k1
    · subst h1
      simp [mapSet_cons, mapDelete_cons, h, Ne.symm h]
    · by_cases h2 : a = k2 <;>
        simp [mapSet_cons, mapDelete_cons, h1, h2, ih, Ne.symm h]

theorem mapDelete_mapSet_self (m : List (String × Buffer)) (k : String)
    (v : Buffer) : mapDelete (mapSet m k v) k = mapDelete m k := by
  induction m with
  | nil => simp [mapSet, mapDelete, List.filter_cons]
  | cons p rest ih =>
    obtain ⟨a, w⟩ := p
    by_cases h : a = k <;> simp [mapSet_cons, mapDelete_cons, h, ih]

theorem mapDelete_of_mapLookup_none (m : List (String × Buffer)) (k : String)
    (h : mapLookup m k = none) : mapDelete m k = m := by
  induction m with
  | nil => rfl
  | cons p rest ih =>
    obtain ⟨a, w⟩ := p
    by_cases hp : a = k
    · simp [mapLookup_cons, hp] at h
    · rw [mapLookup_cons, if_neg hp] at h
      simp [mapDelete_cons, hp, ih h]

/-! ## Helper lemmas: the sorted index -/

theorem search_le_length (l : List String) (x : String) :
    search l x ≤ l.length := by
  induction l with
  | nil => simp [search]
  | cons y ys ih =>
    by_cases h : nameLt y x
    · simp only [search, if_pos h, List.length_cons]
      omega
    · simp [search, h]

theorem search_lt_length_of_mem {l : List String} {x : String} (h : x ∈ l) :
    search l x < l.length := by
  induction l with
  | nil => cases h
  | cons y ys ih =>
    by_cases hlt : nameLt y x
    · have hxy : x ≠ y := by
        rintro rfl
        exact lt_irrefl _ hlt
      have hx : x ∈ ys := (List.mem_cons.mp h).resolve_left hxy
      simp only [search, if_pos hlt, List.length_cons]
      exact Nat.succ_lt_succ (ih hx)
    · simp [search, hlt]

/-- `memBlobs.insert` is exactly ordered insertion with respect to the
byte-wise string order. -/
theorem memInsert_eq_orderedInsert (l : List String) (x : String) :
    memInsert l x = List.orderedInsert nameLe x l := by
  induction l with
  | nil => rfl
  | cons y ys ih =>
    by_cases h : nameLt y x
    · have hle : ¬ nameLe x y := by
        simp only [nameLe, not_le]
        exact h
      simp only [memInsert, search, if_pos h, List.insertIdx_succ_cons,
        List.orderedInsert, if_neg hle]
      rw [← memInsert, ih]
    · have hle : nameLe x y := by
        simp only [nameLe]
        exact le_of_not_lt h
      simp [memInsert, search, h, List.orderedInsert, hle]

theorem mem_memInsert_self (l : List String) (x : String) : x ∈ memInsert l x := by
  rw [memInsert_eq_orderedInsert]
  exact (List.mem_orderedInsert nameLe).mpr (Or.inl rfl)

theorem mem_memInsert_of_mem {l : List String} {y : String} (x : String)
    (h : y ∈ l) : y ∈ memInsert l x := by
  rw [memInsert_eq_orderedInsert]
  exact (List.mem_orderedInsert nameLe).mpr (Or.inr h)

/-- On any list that contains `x`, `extract x` cannot panic: it returns some
result. -/
theorem memExtract_isSome_of_mem {l : List String} {x : String} (h : x ∈ l) :
    ∃ l' b, memExtract l x = some (l', b) := by
  have hlt := search_lt_length_of_mem h
  by_cases hget : l.get ⟨search l x, hlt⟩ = x
  · have hget' : l[search l x] = x := hget
    exact ⟨l.eraseIdx (search l x), true, by simp [memExtract, hlt, hget']⟩
  · have hget' : ¬ l[search l x] = x := hget
    exact ⟨l, false, by simp [memExtract, hlt, hget']⟩

/-! ## Helper lemmas: sortedness of the index -/

theorem toList_inj {a b : String} (h : a.toList = b.toList) : a = b := by
  cases a
  cases b
  exact congrArg String.mk h

instance : IsTotal String nameLe :=
  ⟨fun a b => le_total a.toList b.toList⟩

instance : IsTrans String nameLe :=
  ⟨fun _ _ _ h1 h2 => le_trans h1 h2⟩

theorem nameLe_antisymm {a b : String} (h1 : nameLe a b) (h2 : nameLe b a) :
    a = b :=
  toList_inj (le_antisymm h1 h2)

theorem nameLe_of_not_nameLt {a b : String} (h : ¬ nameLt a b) : nameLe b a :=
  le_of_not_lt h

theorem sorted_memInsert {l : List String} (x : String)
    (hs : List.Sorted nameLe l) : List.Sorted nameLe (memInsert l x) := by
  rw [memInsert_eq_orderedInsert]
  exact hs.orderedInsert x l

theorem perm_memInsert (l : List String) (x : String) :
    List.Perm (memInsert l x) (x :: l) := by
  rw [memInsert_eq_orderedInsert]
  exact List.perm_orderedInsert nameLe x l

theorem nodup_memInsert {l : List String} {x : String} (hx : x ∉ l)
    (hnd : l.Nodup) : (memInsert l x).Nodup :=
  (perm_memInsert l x).nodup_iff.mpr (List.nodup_cons.mpr ⟨hx, hnd⟩)

/-- On a sorted list containing `x`, the `Search` position holds `x`
itself. -/
theorem get_search_of_mem {l : List String} {x : String}
    (hs : List.Sorted nameLe l) (hx : x ∈ l) :
    l.get ⟨search l x, search_lt_length_of_mem hx⟩ = x := by
  induction l with
  | nil => cases hx
  | cons y ys ih =>
    rw [List.sorted_cons] at hs
    by_cases hlt : nameLt y x
    · have hxy : x ≠ y := by
        rintro rfl
        exact lt_irrefl _ hlt
      have hmem : x ∈ ys := (List.mem_cons.mp hx).resolve_left hxy
      have := ih hs.2 hmem
      simp only [search, if_pos hlt]
      exact this
    · simp only [search, if_neg hlt, List.get]
      rcases List.mem_cons.mp hx with rfl | hmem
      · rfl
      · exact nameLe_antisymm (hs.1 x hmem) (nameLe_of_not_nameLt hlt)

/-- On a sorted list containing `x`, removing the element at the `Search`
position is exactly erasing `x`. -/
theorem eraseIdx_search_of_mem {l : List String} {x : String}
    (hs : List.Sorted nameLe l) (hx : x ∈ l) :
    l.eraseIdx (search l x) = l.erase x := by
  induction l with
  | nil => cases hx
  | cons y ys ih =>
    rw [List.sorted_cons] at hs
    by_cases hlt : nameLt y x
    · have hxy : x ≠ y := by
        rintro rfl
        exact lt_irrefl _ hlt
      have hmem : x ∈ ys := (List.mem_cons.mp hx).resolve_left hxy
      simp only [search, if_pos hlt, List.eraseIdx_cons_succ]
      rw [ih hs.2 hmem, List.erase_cons_tail]
      simp [Ne.symm hxy]
    · have hyx : y = x := by
        rcases List.mem_cons.mp hx with rfl | hmem
        · rfl
        · exact nameLe_antisymm (hs.1 x hmem) (nameLe_of_not_nameLt hlt)
      subst hyx
      simp only [search, if_neg hlt, List.eraseIdx_cons_zero,
        List.erase_cons_head]

/-- `extract` of a present name on a sorted list: succeeds, erases it,
reports `true`. -/
theorem memExtract_of_mem {l : List String} {x : String}
    (hs : List.Sorted nameLe l) (hx : x ∈ l) :
    memExtract l x = some (l.erase x, true) := by
  have hlt := search_lt_length_of_mem hx
  have hget : l.get ⟨search l x, hlt⟩ = x := get_search_of_mem hs hx
  simp only [memExtract, dif_pos hlt]
  rw [if_pos hget, eraseIdx_search_of_mem hs hx]

/-- `extract` of an absent name whose search position is still in bounds:
succeeds without changing the list, reports `false`. -/
theorem memExtract_of_not_mem {l : List String} {x : String} (hx : x ∉ l)
    (hlt : search l x < l.length) :
    memExtract l x = some (l, false) := by
  have hget : ¬ l.get ⟨search l x, hlt⟩ = x := by
    intro h
    exact hx (h ▸ List.get_mem l (search l x) hlt)
  simp only [memExtract, dif_pos hlt]
  rw [if_neg hget]

/-- Erasing preserves sortedness (it is a sublist). -/
theorem sorted_erase {l : List String} (x : String)
    (hs : List.Sorted nameLe l) : List.Sorted nameLe (l.erase x) :=
  hs.sublist (List.erase_sublist x l)

/-- The invariant behind the amended sorted-index claim: starting from a
sorted duplicate-free index that is a permutation of the present-name set
`p`, a valid sequence of `insert`/`extract` calls never panics and ends in a
sorted duplicate-free index that is a permutation of the resulting
present-name set — in particular its length is the number of present
names. -/
theorem runIdxOpsFrom_invariant (ops : List IdxOp) (l p : List String)
    (hs : List.Sorted nameLe l) (hnd : l.Nodup) (hperm : List.Perm l p)
    (hv : validFrom l ops = true) :
    ∃ r, runIdxOpsFrom l ops = some r ∧ List.Sorted nameLe r ∧ r.Nodup ∧
      List.Perm r (presentFrom p ops) ∧
      r.length = (presentFrom p ops).length := by
  induction ops generalizing l p with
  | nil => exact ⟨l, rfl, hs, hnd, hperm, hperm.length_eq⟩
  | cons op rest ih =>
    cases op with
    | ins n =>
      rw [validFrom, Bool.and_eq_true] at hv
      have hn : n ∉ l := by
        simpa using hv.1
      have hnp : n ∉ p := fun h => hn (hperm.mem_iff.mpr h)
      have hstep := ih (memInsert l n) (n :: p) (sorted_memInsert n hs)
        (nodup_memInsert hn hnd)
        ((perm_memInsert l n).trans (hperm.cons n)) hv.2
      simpa [runIdxOpsFrom, presentFrom, hnp] using hstep
    | ext n =>
      rw [validFrom, Bool.and_eq_true, decide_eq_true_iff] at hv
      by_cases hn : n ∈ l
      · have hext := memExtract_of_mem hs hn
        have hstep := ih (l.erase n) (p.erase n) (sorted_erase n hs)
          (hnd.erase n) (hperm.erase n) (by simpa [extStep, hext] using hv.2)
        simpa [runIdxOpsFrom, presentFrom, hext] using hstep
      · have hext := memExtract_of_not_mem hn hv.1
        have hnp : n ∉ p := fun h => hn (hperm.mem_iff.mpr h)
        have hstep := ih l p hs hnd
          (by simpa [List.erase_of_not_mem hnp] using hperm)
          (by simpa [extStep, hext] using hv.2)
        simpa [runIdxOpsFrom, presentFrom, hext,
          List.erase_of_not_mem hnp] using hstep

/-- C7 (counterexample to the unrestricted claim): inserting `"a"` twice
makes the index `["a", "a"]` — length 2 while only one name is present — and
extracting `"a"` from the empty index reads `keynames[0]` out of bounds (a Go
panic), so calls with arbitrary names can both break the length property and
fail. -/
theorem idxOps_unrestricted_counterexample :
    runIdxOpsFrom [] [.ins "a", .ins "a"] = some ["a", "a"] ∧
    (presentFrom [] [.ins "a", .ins "a"]).length = 1 ∧
    memExtract [] "a" = none ∧
    runIdxOpsFrom [] [.ext "a"] = none := by
  decide

/-- C7 (amended): for every interleaved sequence of `insert`/`extract` calls
in which each inserted name is not currently present and each extract's
search position lands in bounds (in particular whenever the extracted name is
present, or not greater than every present name), no call panics, the index
stays sorted (byte-wise string order) and duplicate-free, and its contents —
hence its length — are exactly the currently-present names. -/
theorem idxOps_sorted_invariant (ops : List IdxOp)
    (hv : validFrom [] ops = true) :
    ∃ r, runIdxOpsFrom [] ops = some r ∧ List.Sorted nameLe r ∧ r.Nodup ∧
      List.Perm r (presentFrom [] ops) ∧
      r.length = (presentFrom [] ops).length :=
  runIdxOpsFrom_invariant ops [] [] (List.sorted_nil) (List.nodup_nil)
    (List.Perm.refl []) hv

/-- Witness for `idxOps_sorted_invariant`: inserts of two fresh names, an
extract of an absent-but-in-bounds name, then extracts of the present
names. -/
theorem idxOps_sorted_invariant_witness :
    ∃ r, runIdxOpsFrom []
        [.ins "b", .ins "d", .ext "a", .ext "b", .ext "d"] = some r ∧
      List.Sorted nameLe r ∧ r.Nodup ∧
      List.Perm r (presentFrom []
        [.ins "b", .ins "d", .ext "a", .ext "b", .ext "d"]) ∧
      r.length = (presentFrom []
        [.ins "b", .ins "d", .ext "a", .ext "b", .ext "d"]).length :=
  idxOps_sorted_invariant [.ins "b", .ins "d", .ext "a", .ext "b", .ext "d"]
    (by decide)

/-! ## Helper lemmas: enumeration -/

/-- The traversal of the memory medium always completes cleanly. -/
theorem memListTo_completes (names : List String)
    (f : String → Option Key) : (memListTo names f).2 = true := by
  induction names with
  | nil => rfl
  | cons n rest ih =>
    rw [memListTo]
    cases f n <;> simpa [memListTo]

/-- The elements sent on the channel are exactly the accepted keys, each
paired with no error, in the order of the index. -/
theorem memListTo_elements (names : List String) (f : String → Option Key) :
    (memListTo names f).1 =
      (names.filterMap f).map (fun k => ⟨some k, none⟩) := by
  induction names with
  | nil => rfl
  | cons n rest ih =>
    rw [memListTo, List.filterMap_cons]
    cases f n <;> simp [ih]

/-- Under the canonical-name condition, mapping accepted keys back to their
hex text recovers a sublist of the index. -/
theorem hexMap_filterMap_sublist (f : String → Option Key)
    (names : List String)
    (hcanon : ∀ n ∈ names, ∀ k, f n = some k → hexEncode k = n) :
    List.Sublist ((names.filterMap f).map hexEncode) names := by
  induction names with
  | nil => simp
  | cons n rest ih =>
    have ihr := ih (fun m hm k hk => hcanon m (List.mem_cons_of_mem n hm) k hk)
    rw [List.filterMap_cons]
    cases hf : f n with
    | none => exact ihr.cons n
    | some k =>
      rw [List.map_cons, hcanon n (List.mem_cons_self n rest) k hf]
      exact ihr.cons₂ n

/-- C10: `memBlobs.ListTo` walks the keyname index in order applying the
engine's acceptor to each name directly, emits exactly the accepted keys —
each as a key element with no error — in the index's order, always completes
cleanly (returns `true`, never emits an error element), and when the index is
sorted and canonical (every accepted name is the hex text of its key, as the
engine maintains), the emitted keys are in ascending hex order. -/
theorem memListTo_ordered_spec (hsize : Nat) (names : List String)
    (hs : List.Sorted nameLe names)
    (hcanon : ∀ n ∈ names, ∀ k, acceptorFn hsize n = some k → hexEncode k = n) :
    (memListTo names (acceptorFn hsize)).2 = true ∧
    (memListTo names (acceptorFn hsize)).1 =
      (names.filterMap (acceptorFn hsize)).map (fun k => ⟨some k, none⟩) ∧
    (∀ e ∈ (memListTo names (acceptorFn hsize)).1, e.err = none) ∧
    List.Sorted nameLe ((names.filterMap (acceptorFn hsize)).map hexEncode) := by
  refine ⟨memListTo_completes _ _, memListTo_elements _ _, ?_, ?_⟩
  · intro e he
    rw [memListTo_elements] at he
    obtain ⟨k, _, rfl⟩ := List.mem_map.mp he
    rfl
  · exact hs.sublist (hexMap_filterMap_sublist _ _ hcanon)

/-- Witness for `memListTo_ordered_spec`: a sorted index with two canonical
hex names and one foreign name that the filter rejects. -/
theorem memListTo_ordered_spec_witness :
    (memListTo ["00", "01", "zz"] (acceptorFn 1)).2 = true ∧
    (memListTo ["00", "01", "zz"] (acceptorFn 1)).1 =
      ((["00", "01", "zz"].filterMap (acceptorFn 1)).map
        (fun k => ⟨some k, none⟩)) ∧
    (∀ e ∈ (memListTo ["00", "01", "zz"] (acceptorFn 1)).1, e.err = none) ∧
    List.Sorted nameLe
      ((["00", "01", "zz"].filterMap (acceptorFn 1)).map hexEncode) :=
  memListTo_ordered_spec 1 ["00", "01", "zz"] (by decide)
    (by
      have h00 : acceptorFn 1 "00" = some [0] := by decide
      have h01 : acceptorFn 1 "01" = some [1] := by decide
      have hzz : acceptorFn 1 "zz" = none := by decide
      intro n hn k hk
      simp only [List.mem_cons, List.not_mem_nil, or_false] at hn
      rcases hn with rfl | rfl | rfl
      · rw [h00] at hk
        cases hk
        decide
      · rw [h01] at hk
        cases hk
        decide
      · rw [hzz] at hk
        cases hk)

/-! ## Helper lemmas: the two paths of `VFSBlobServer.Write` -/

/-- When the canonical location already exists, `Write` deletes the temporary
from the blob map (deduplication); the temporary name stays in the keyname
index (`Delete` never touches the index). -/
theorem bsWrite_dedup_eq (hash : List Nat → List Nat) (s : MemBlobs)
    (tmp : String) (B : List Nat)
    (hkn : (mapLookup s.blobs (keynameOf (hash B))).isSome)
    (htmp : tmp ≠ keynameOf (hash B)) :
    bsWrite hash s tmp B =
      some (hash B, { blobs := mapDelete s.blobs tmp,
                      keynames := memInsert s.keynames tmp }) := by
  have hne : keynameOf (hash B) ≠ tmp := Ne.symm htmp
  have hlook :
      mapLookup (mapSet (mapSet s.blobs tmp []) tmp B) (keynameOf (hash B)) =
        mapLookup s.blobs (keynameOf (hash B)) := by
    rw [mapLookup_mapSet_ne _ _ hne, mapLookup_mapSet_ne _ _ hne]
  rw [bsWrite]
  simp only [memCreate, memExists, hlook]
  rw [if_pos hkn]
  simp only [memDelete]
  rw [mapDelete_mapSet_self, mapDelete_mapSet_self]

/-- When the canonical location does not exist yet, `Write` renames the
temporary there: the blob map afterwards holds the blob under its canonical
name and no longer holds the temporary. -/
theorem bsWrite_fresh_eq (hash : List Nat → List Nat) (s : MemBlobs)
    (tmp : String) (B : List Nat)
    (hkn : mapLookup s.blobs (keynameOf (hash B)) = none)
    (htmp : tmp ≠ keynameOf (hash B)) :
    ∃ kns, bsWrite hash s tmp B =
      some (hash B, { blobs := mapSet (mapDelete s.blobs tmp) (keynameOf (hash B)) B,
                      keynames := kns }) := by
  have hne : keynameOf (hash B) ≠ tmp := Ne.symm htmp
  have hlook :
      mapLookup (mapSet (mapSet s.blobs tmp []) tmp B) (keynameOf (hash B)) =
        mapLookup s.blobs (keynameOf (hash B)) := by
    rw [mapLookup_mapSet_ne _ _ hne, mapLookup_mapSet_ne _ _ hne]
  have htmpmem : tmp ∈ memInsert (memInsert s.keynames tmp) (keynameOf (hash B)) :=
    mem_memInsert_of_mem _ (mem_memInsert_self _ _)
  obtain ⟨k2, b2, hext⟩ := memExtract_isSome_of_mem htmpmem
  refine ⟨k2, ?_⟩
  rw [bsWrite]
  simp only [memCreate, memExists, hlook, hkn, Option.isSome_none,
    Bool.false_eq_true, if_false, memRename, mapLookup_mapSet_self,
    Option.getD_some, hext]
  have hblobs :
      mapDelete (mapSet (mapSet (mapSet s.blobs tmp []) tmp B)
          (keynameOf (hash B)) B) tmp =
        mapSet (mapDelete s.blobs tmp) (keynameOf (hash B)) B := by
    rw [mapDelete_mapSet_comm _ _ hne, mapDelete_mapSet_self, mapDelete_mapSet_self]
  rw [hblobs]
  rfl

/-- After any successful `Write` of `B` from a state whose canonical entry
for `B` (if any) holds exactly `B`, the canonical entry holds `B`. -/
theorem bsWrite_canonical (hash : List Nat → List Nat) (s : MemBlobs)
    (tmp : String) (B : List Nat)
    (htmp : tmp ≠ keynameOf (hash B))
    (hcanon : ∀ C, mapLookup s.blobs (keynameOf (hash B)) = some C → C = B) :
    ∃ s1, bsWrite hash s tmp B = some (hash B, s1) ∧
      mapLookup s1.blobs (keynameOf (hash B)) = some B := by
  cases hl : mapLookup s.blobs (keynameOf (hash B)) with
  | some C =>
    have hCB := hcanon C hl
    rw [hCB] at hl
    refine ⟨_, bsWrite_dedup_eq hash s tmp B (by simp [hl]) htmp, ?_⟩
    show mapLookup (mapDelete s.blobs tmp) (keynameOf (hash B)) = some B
    rw [mapLookup_mapDelete_ne _ (Ne.symm htmp)]
    exact hl
  | none =>
    obtain ⟨kns, heq⟩ := bsWrite_fresh_eq hash s tmp B hl htmp
    exact ⟨_, heq, mapLookup_mapSet_self _ _ _⟩

/-- C3 (counterexample to the unrestricted claim, on a reachable state):
from the empty store, write `[7]`, drain a read of its key (which consumes
the stored buffer, leaving a stale empty canonical entry — the pointer
effect of `memBlobs.Open`), then write `[7]` again: the second write sees
the canonical name `Exists` and takes the dedup branch, so reading the
returned key now delivers zero bytes and a corruption error instead of `[7]`
with ordinary end-of-stream.  Digest collisions play no role (the digest
here is injective on the traced inputs). -/
theorem write_read_write_read_not_roundtrip :
    bsWrite (fun l => [l.length % 256]) emptyMem "t1.new" [7] =
      some ([1], ⟨[("01", [7])], ["01"]⟩) ∧
    (readFull (fun l => [l.length % 256]) 1 ⟨[("01", [7])], ["01"]⟩ [1]) =
      (⟨[7], none⟩, ⟨[("01", [])], ["01"]⟩) ∧
    bsWrite (fun l => [l.length % 256]) ⟨[("01", [])], ["01"]⟩ "t2.new" [7] =
      some ([1], ⟨[("01", [])], ["01", "t2.new"]⟩) ∧
    (readFull (fun l => [l.length % 256]) 1
        ⟨[("01", [])], ["01", "t2.new"]⟩ [1]).1 =
      ⟨[], some (.corrupted [1] [0])⟩ := by
  decide

/-- C3 (amended): writing a byte sequence `B` and then reading the returned
key delivers exactly `B`, ending in ordinary end-of-stream with no corruption
error, provided the canonical entry for `hash B` — if already present —
still holds `B`.  The proviso holds on first write of the content (e.g. from
the empty store) but, as `write_read_write_read_not_roundtrip` shows, not in
every reachable state: a previously drained read leaves a stale empty
canonical entry that the dedup branch then trusts.  The other hypotheses are
the digest-size contract and the freshness of the random temporary name (it
carries the `.new` suffix, canonical names are pure hex). -/
theorem write_then_read_roundtrip (hash : List Nat → List Nat) (hsize : Nat)
    (s : MemBlobs) (tmp : String) (B : List Nat)
    (hlen : (hash B).length = hsize)
    (htmp : tmp ≠ keynameOf (hash B))
    (hcanon : ∀ C, mapLookup s.blobs (keynameOf (hash B)) = some C → C = B) :
    ∃ s1, bsWrite hash s tmp B = some (hash B, s1) ∧
      (readFull hash hsize s1 (hash B)).1 = ⟨B, none⟩ := by
  obtain ⟨s1, hw, hlook⟩ := bsWrite_canonical hash s tmp B htmp hcanon
  refine ⟨s1, hw, ?_⟩
  have hnshort : ¬ (hash B).length < hsize := by omega
  simp [readFull, bsRead, hnshort, hlook, consumeAll]

/-- Witness for `write_then_read_roundtrip`: digest = length of the input,
one written byte. -/
theorem write_then_read_roundtrip_witness :
    ∃ s1, bsWrite (fun l => [l.length % 256]) emptyMem "zz.new" [7] =
        some ([1], s1) ∧
      (readFull (fun l => [l.length % 256]) 1 s1 [1]).1 = ⟨[7], none⟩ :=
  write_then_read_roundtrip (fun l => [l.length % 256]) 1 emptyMem "zz.new" [7]
    (by decide) (by decide) (by intro C h; simp [emptyMem, mapLookup] at h)

/-- C4: on the memory medium `Open` hands out the stored buffer itself, so a
full read consumes it: the first drain delivers the stored contents and
mutates the medium state (the entry becomes empty but stays present); a
second `Read` of the same key still succeeds at open, yet delivers zero
bytes. -/
theorem read_consumes_buffer (hash : List Nat → List Nat) (hsize : Nat)
    (s : MemBlobs) (key : Key) (C : Buffer)
    (hk : hsize ≤ key.length)
    (hbuf : mapLookup s.blobs (keynameOf key) = some C)
    (hC : C ≠ []) :
    (readFull hash hsize s key).1.bytes = C ∧
    (readFull hash hsize s key).2 ≠ s ∧
    mapLookup (readFull hash hsize s key).2.blobs (keynameOf key) = some [] ∧
    (∃ rd, (bsRead hsize (readFull hash hsize s key).2 key).1 = .ok rd) ∧
    (readFull hash hsize (readFull hash hsize s key).2 key).1.bytes = [] := by
  have hnshort : ¬ key.length < hsize := by omega
  have hrf : readFull hash hsize s key =
      (⟨C, if key = hash C then none else some (.corrupted key (hash C))⟩,
        { s with blobs := mapSet s.blobs (keynameOf key) [] }) := by
    simp [readFull, bsRead, hnshort, hbuf, consumeAll]
  refine ⟨by rw [hrf], ?_, ?_, ?_, ?_⟩
  · rw [hrf]
    intro heq
    have hlk := congrArg (fun st => mapLookup st.blobs (keynameOf key)) heq
    simp only [mapLookup_mapSet_self, hbuf] at hlk
    exact hC (Option.some.inj hlk).symm
  · rw [hrf]
    exact mapLookup_mapSet_self _ _ _
  · rw [hrf]
    exact ⟨⟨keynameOf key, key⟩,
      by simp [bsRead, hnshort, mapLookup_mapSet_self]⟩
  · rw [hrf]
    simp [readFull, bsRead, hnshort, mapLookup_mapSet_self, consumeAll]

/-- Witness for `read_consumes_buffer`: one stored two-byte blob. -/
theorem read_consumes_buffer_witness :
    (readFull (fun l => [l.length % 256]) 1
        ⟨[("07", [1, 2])], ["07"]⟩ [7]).1.bytes = [1, 2] ∧
    (readFull (fun l => [l.length % 256]) 1
        ⟨[("07", [1, 2])], ["07"]⟩ [7]).2 ≠ ⟨[("07", [1, 2])], ["07"]⟩ ∧
    mapLookup (readFull (fun l => [l.length % 256]) 1
        ⟨[("07", [1, 2])], ["07"]⟩ [7]).2.blobs (keynameOf [7]) = some [] ∧
    (∃ rd, (bsRead 1 (readFull (fun l => [l.length % 256]) 1
        ⟨[("07", [1, 2])], ["07"]⟩ [7]).2 [7]).1 = .ok rd) ∧
    (readFull (fun l => [l.length % 256]) 1
        (readFull (fun l => [l.length % 256]) 1
          ⟨[("07", [1, 2])], ["07"]⟩ [7]).2 [7]).1.bytes = [] :=
  read_consumes_buffer (fun l => [l.length % 256]) 1
    ⟨[("07", [1, 2])], ["07"]⟩ [7] [1, 2] (by decide) (by decide) (by decide)

/-- C5: writing the same bytes twice returns the same key both times with no
error (no panic), the canonical entry exists after the first write, and the
second write leaves the blob map exactly as it was: its temporary is created
and then deleted again, and no new canonical object is stored. -/
theorem write_twice_dedup (hash : List Nat → List Nat) (s : MemBlobs)
    (tmp1 tmp2 : String) (B : List Nat)
    (h1 : tmp1 ≠ keynameOf (hash B)) (h2 : tmp2 ≠ keynameOf (hash B))
    (hf : mapLookup s.blobs tmp2 = none) :
    ∃ s1 s2, bsWrite hash s tmp1 B = some (hash B, s1) ∧
      bsWrite hash s1 tmp2 B = some (hash B, s2) ∧
      (mapLookup s1.blobs (keynameOf (hash B))).isSome = true ∧
      s2.blobs = s1.blobs := by
  have step2 : ∀ s1 : MemBlobs,
      (mapLookup s1.blobs (keynameOf (hash B))).isSome = true →
      mapLookup s1.blobs tmp2 = none →
      ∃ s2, bsWrite hash s1 tmp2 B = some (hash B, s2) ∧ s2.blobs = s1.blobs := by
    intro s1 hsome hnone
    refine ⟨_, bsWrite_dedup_eq hash s1 tmp2 B hsome h2, ?_⟩
    exact mapDelete_of_mapLookup_none _ _ hnone
  cases hl : mapLookup s.blobs (keynameOf (hash B)) with
  | some C =>
    have hw1 := bsWrite_dedup_eq hash s tmp1 B (by simp [hl]) h1
    have hsome : (mapLookup (mapDelete s.blobs tmp1) (keynameOf (hash B))).isSome
        = true := by
      rw [mapLookup_mapDelete_ne _ (Ne.symm h1), hl]
      rfl
    have hnone : mapLookup (mapDelete s.blobs tmp1) tmp2 = none := by
      by_cases ht : tmp2 = tmp1
      · rw [ht]
        exact mapLookup_mapDelete_self _ _
      · rw [mapLookup_mapDelete_ne _ ht]
        exact hf
    obtain ⟨s2, hw2, hb⟩ :=
      step2 ⟨mapDelete s.blobs tmp1, memInsert s.keynames tmp1⟩ hsome hnone
    exact ⟨_, s2, hw1, hw2, hsome, hb⟩
  | none =>
    obtain ⟨kns, hw1⟩ := bsWrite_fresh_eq hash s tmp1 B hl h1
    have hsome : (mapLookup (mapSet (mapDelete s.blobs tmp1) (keynameOf (hash B)) B)
        (keynameOf (hash B))).isSome = true := by
      rw [mapLookup_mapSet_self]
      rfl
    have hnone : mapLookup (mapSet (mapDelete s.blobs tmp1) (keynameOf (hash B)) B)
        tmp2 = none := by
      rw [mapLookup_mapSet_ne _ _ h2]
      by_cases ht : tmp2 = tmp1
      · rw [ht]
        exact mapLookup_mapDelete_self _ _
      · rw [mapLookup_mapDelete_ne _ ht]
        exact hf
    obtain ⟨s2, hw2, hb⟩ :=
      step2 ⟨mapSet (mapDelete s.blobs tmp1) (keynameOf (hash B)) B, kns⟩
        hsome hnone
    exact ⟨_, s2, hw1, hw2, hsome, hb⟩

/-- Witness for `write_twice_dedup`: the same two bytes written twice with
two distinct temporary names. -/
theorem write_twice_dedup_witness :
    ∃ s1 s2, bsWrite (fun l => [l.length % 256]) emptyMem "t1.new" [7, 9] =
        some ([2], s1) ∧
      bsWrite (fun l => [l.length % 256]) s1 "t2.new" [7, 9] = some ([2], s2) ∧
      (mapLookup s1.blobs (keynameOf [2])).isSome = true ∧
      s2.blobs = s1.blobs :=
  write_twice_dedup (fun l => [l.length % 256]) emptyMem "t1.new" "t2.new"
    [7, 9] (by decide) (by decide) (by simp [emptyMem, mapLookup])

/-- C8 (amended to keys of at least digest size): removing such a key twice
never errors — removal of an absent canonical name is success — and after the
first removal a `Read` of the key fails with the medium's not-found error. -/
theorem remove_remove_read_notFound (hsize : Nat) (s : MemBlobs) (key : Key)
    (h : hsize ≤ key.length) :
    (bsRemove s key).1 = none ∧
    (bsRemove (bsRemove s key).2 key).1 = none ∧
    (bsRead hsize (bsRemove (bsRemove s key).2 key).2 key).1 =
      .error (.notFound (keynameOf key)) := by
  have hnshort : ¬ key.length < hsize := by omega
  have hnone2 : ∀ s' : MemBlobs, mapLookup s'.blobs (keynameOf key) = none →
      bsRemove s' key = (none, s') := by
    intro s' h'
    simp [bsRemove, memExists, h']
  have hafter : mapLookup (bsRemove s key).2.blobs (keynameOf key) = none := by
    cases hl : mapLookup s.blobs (keynameOf key) with
    | some v =>
      simp only [bsRemove, memExists, hl, Option.isSome_some, if_true]
      exact mapLookup_mapDelete_self _ _
    | none =>
      rw [hnone2 s hl]
      exact hl
  refine ⟨?_, ?_, ?_⟩
  · simp only [bsRemove]
    split <;> rfl
  · rw [hnone2 _ hafter]
  · rw [hnone2 _ hafter]
    simp [bsRead, hnshort, hafter]

/-- Witness for `remove_remove_read_notFound`: a present one-byte key at
digest size 1. -/
theorem remove_remove_read_notFound_witness :
    (bsRemove ⟨[("07", [5])], ["07"]⟩ [7]).1 = none ∧
    (bsRemove (bsRemove ⟨[("07", [5])], ["07"]⟩ [7]).2 [7]).1 = none ∧
    (bsRead 1 (bsRemove (bsRemove ⟨[("07", [5])], ["07"]⟩ [7]).2 [7]).2 [7]).1 =
      .error (.notFound (keynameOf [7])) :=
  remove_remove_read_notFound 1 ⟨[("07", [5])], ["07"]⟩ [7] (by decide)

/-- C8 (counterexample to the unrestricted claim): for the empty key at
digest size 1, both removals succeed with no error, but the subsequent read
fails with the short-key size-mismatch error, which is not a not-found
error. -/
theorem remove_remove_read_shortKey_counterexample :
    (bsRemove emptyMem []).1 = none ∧
    (bsRemove (bsRemove emptyMem []).2 []).1 = none ∧
    (bsRead 1 (bsRemove (bsRemove emptyMem []).2 []).2 []).1 =
      .error (.shortKey 1 0 []) ∧
    (BSErr.shortKey 1 0 []).isNotFound = false :=
  ⟨rfl, rfl, rfl, rfl⟩

/-- C1 (code evidence): after `Create "aa"` then `Delete "aa"`, the blob map
is empty but the keyname index still holds `"aa"` — `Delete` removes the name
from the map only, never from the sorted index. -/
theorem create_delete_leaves_index_stale :
    runMedOps emptyMem [.create "aa", .delete "aa"] =
      some { blobs := [], keynames := ["aa"] } := by
  decide

/-- C2 (code evidence): for any digest-size list of random bytes, the
temporary base name `hex(r) + ".new"` is stripped by the traversal to
`hex(r)`, which the acceptor hex-decodes to exactly `hsize` bytes and
therefore ACCEPTS (returning the random bytes as a key) — it does not reject
it as the claim states. -/
theorem tmpName_accepted_by_list_filter (hsize : Nat) (r : List Nat)
    (hlen : r.length = hsize) (hb : ∀ b ∈ r, b < 256) :
    acceptorFn hsize (stripExt (tmpBaseName r)) = some r := by
  have htl : (tmpBaseName r).toList = (hexEncode r).toList ++ '.' :: ['n', 'e', 'w'] := by
    rfl
  have hcontains : (tmpBaseName r).toList.contains '.' = true := by
    rw [htl]
    exact List.elem_eq_true_of_mem (by simp)
  have hstrip : stripExt (tmpBaseName r) = ⟨(hexEncode r).toList⟩ := by
    rw [stripExt, if_pos hcontains, htl,
      takeWhile_ne_dot_append _ _ (fun c hc => hexEncode_char_ne_dot hc)]
  rw [hstrip]
  show acceptorFn hsize ⟨(hexEncode r).toList⟩ = some r
  have hdec : hexDecode ⟨(hexEncode r).toList⟩ = some r := by
    show hexDecodeList (String.toList ⟨(hexEncode r).toList⟩) = some r
    exact hexDecodeList_hexEncode r hb
  rw [acceptorFn, hdec]
  simp [hlen]

/-- Witness for `tmpName_accepted_by_list_filter` at digest size 1 and the
random byte 0. -/
theorem tmpName_accepted_by_list_filter_witness :
    acceptorFn 1 (stripExt (tmpBaseName [0])) = some [0] :=
  tmpName_accepted_by_list_filter 1 [0] rfl (by decide)

/-- C9: a key shorter than the digest size is rejected with the size-mismatch
error before any medium call is made (the recorded medium-call trace is
empty), whatever the medium state. -/
theorem read_shortKey_before_io (hsize : Nat) (s : MemBlobs) (key : Key)
    (h : key.length < hsize) :
    bsRead hsize s key = (.error (.shortKey hsize key.length key), []) := by
  simp [bsRead, h]

/-- Witness for `read_shortKey_before_io`: the empty key at digest size 1. -/
theorem read_shortKey_before_io_witness :
    bsRead 1 emptyMem [] = (.error (.shortKey 1 0 []), []) :=
  read_shortKey_before_io 1 emptyMem [] (by decide)

/-- C6: one `checkedReader.Read` call (i) feeds exactly the delivered chunk
into the hash accumulator, (ii) returns the delivered byte count, (iii) on
end-of-stream returns ordinary `io.EOF` when the accumulated digest matches
the expected key, (iv) on mismatch replaces `io.EOF` by the corruption error
naming the expected and the actual digest — an error distinct from `io.EOF`
and from every ordinary I/O error — and (v) passes a nil result through
unchanged. -/
theorem checkedRead_spec (hash : List Nat → List Nat)
    (key acc chunk : List Nat) (e : Option ReadErr) :
    ((checkedRead hash ⟨key, acc⟩ chunk e).1.hashed = acc ++ chunk) ∧
    ((checkedRead hash ⟨key, acc⟩ chunk e).2.1 = chunk.length) ∧
    (e = some .eof → hash (acc ++ chunk) = key →
      (checkedRead hash ⟨key, acc⟩ chunk e).2.2 = some .eof) ∧
    (e = some .eof → hash (acc ++ chunk) ≠ key →
      (checkedRead hash ⟨key, acc⟩ chunk e).2.2 =
          some (.corrupted key (hash (acc ++ chunk))) ∧
        ReadErr.corrupted key (hash (acc ++ chunk)) ≠ .eof ∧
        ∀ c, ReadErr.corrupted key (hash (acc ++ chunk)) ≠ .ioErr c) ∧
    (e = none → (checkedRead hash ⟨key, acc⟩ chunk e).2.2 = none) := by
  have hacc : (if 0 < chunk.length then acc ++ chunk else acc) = acc ++ chunk := by
    cases chunk <;> simp
  refine ⟨?_, ?_, ?_, ?_, ?_⟩
  · simp [checkedRead, hacc]
  · simp [checkedRead]
  · rintro rfl hmatch
    simp [checkedRead, hacc, hmatch.symm]
  · rintro rfl hmismatch
    refine ⟨?_, by simp, by simp⟩
    simp only [checkedRead, hacc]
    rw [if_neg (fun hk => hmismatch hk.symm)]
  · rintro rfl
    simp [checkedRead]

/-- Witness for `checkedRead_spec`: a concrete digest function, a read
delivering two bytes together with end-of-stream, once matching and once
mismatching. -/
theorem checkedRead_spec_witness :
    (checkedRead (fun l => [l.length % 256]) ⟨[2], []⟩ [7, 8] (some .eof)).2.2 =
        some .eof ∧
      (checkedRead (fun l => [l.length % 256]) ⟨[9], []⟩ [7, 8] (some .eof)).2.2 =
        some (.corrupted [9] [2]) :=
  ⟨(checkedRead_spec (fun l => [l.length % 256]) [2] [] [7, 8] (some .eof)).2.2.1
      rfl (by decide),
    ((checkedRead_spec (fun l => [l.length % 256]) [9] [] [7, 8] (some .eof)).2.2.2.1
      rfl (by decide)).1⟩

end Blobstore
